import Mathlib

/-!
# Verification of `nu_plugin_http_serve` (`src/serve.rs`)

A shallow embedding of the request/response mapping layer of the
`http serve` Nushell plugin, together with theorems checking the
natural-language specification against the code.

Conventions of the embedding:
* Rust `&str` operations are modelled over `String` / `List Char`;
  the strings involved (addresses, query strings, JSON text) are
  processed by the source character by character, so a `List Char`
  model is faithful.
* Byte vectors (`Vec<u8>`) are modelled as `List Nat`, with each entry
  below 256 where it matters; `String::into_bytes` is UTF-8 encoding.
* Rust `f64` is opaque to this development: the source only ever
  renders a float (Rust `Display`) or converts it with
  `serde_json::Number::from_f64` (which fails on NaN/infinite values).
  A float value is therefore modelled by those two observations.
* The vendored `tiny-http` fork's `Response` builders are not part of
  the sources available here (only `connection.rs` is); they are
  modelled from the specification where noted.
-/

namespace HttpServe

/-! ## Character and number helpers -/

/-- Decimal digit character for `d < 10`. -/
def digitChar (d : Nat) : Char :=
  Char.ofNat (48 + d)

/-- Numeric value of a decimal digit character. -/
def digitVal (c : Char) : Nat :=
  c.toNat - 48

/-- Fold a list of decimal digit characters to the number they denote
(most significant first). -/
def charsToNat (cs : List Char) : Nat :=
  cs.foldl (fun a c => a * 10 + digitVal c) 0

/-- Canonical decimal digit string of a natural number, as produced by
Rust's integer `Display`. -/
def natDigits (n : Nat) : List Char :=
  if _h : n < 10 then [digitChar n]
  else natDigits (n / 10) ++ [digitChar (n % 10)]
  decreasing_by exact Nat.div_lt_self (by omega) (by omega)

/-- Canonical decimal rendering of an integer, as produced by Rust's
`i64::to_string`. -/
def intRender (i : Int) : List Char :=
  if i < 0 then '-' :: natDigits i.natAbs else natDigits i.natAbs

/-! ## Splitting helpers (Rust `str::split`, `str::find`) -/

/-- Split a character list at the first occurrence of `c`: returns the
part before and the part after, or `none` when `c` does not occur.
Models Rust `str::find` followed by index slicing. -/
def splitAtFirst (c : Char) : List Char → Option (List Char × List Char)
  | [] => none
  | x :: xs =>
    if x = c then some ([], xs)
    else (splitAtFirst c xs).map (fun p => (x :: p.1, p.2))

/-- Rust `str::split(c)`: the list of segments between occurrences of
`c` (empty segments included; always at least one segment). -/
def splitChar (c : Char) : List Char → List (List Char)
  | [] => [[]]
  | x :: xs =>
    if x = c then [] :: splitChar c xs
    else
      match splitChar c xs with
      | [] => [[x]]
      | h :: t => (x :: h) :: t

/-! ## Rust `u16::from_str` -/

/-- Rust `str::parse::<u16>()`: an optional leading `+`, then one or
more ASCII digits, value at most `65535`; anything else fails. -/
def rustParseU16 (cs : List Char) : Option Nat :=
  let t := match cs with
    | '+' :: rest => rest
    | other => other
  if t ≠ [] ∧ t.all Char.isDigit ∧ charsToNat t ≤ 65535 then
    some (charsToNat t)
  else none

/-- Rust `str::starts_with(c)` for a character pattern. -/
def strStartsWith (s : String) (c : Char) : Bool :=
  match s.data with
  | x :: _ => x = c
  | [] => false

/-- Rust `str::contains(c)` for a character pattern. -/
def strContains (s : String) (c : Char) : Bool :=
  s.data.contains c

/-! ## Address classification (`serve.rs`, `serve`, lines 81–88) -/

/-- The TCP/Unix classification of the bind address, translated from
`serve.rs`:

`socket_path.starts_with(':') || socket_path.contains(':') &&
 socket_path.split(':').next_back().unwrap_or("").parse::<u16>().is_ok()` -/
def is_tcp (socket_path : String) : Bool :=
  strStartsWith socket_path ':' ||
    (strContains socket_path ':' &&
      (rustParseU16 (((splitChar ':' socket_path.data).getLast?).getD [])).isSome)

/-- The classification the claim states: the address matches
`^:\d+$` or `^[^:]*:\d+$` and the digit suffix parses as an unsigned
16-bit integer; this is a spec-side definition used to compare the
claim's wording with the code. -/
def claimedTcp (s : String) : Bool :=
  match splitAtFirst ':' s.data with
  | some (_, after) =>
    after ≠ [] && after.all Char.isDigit && charsToNat after ≤ 65535
  | none => false

/-- Split at the last occurrence of `c` (spec-side helper for the
amended classification statement). -/
def splitAtLast (c : Char) (l : List Char) : Option (List Char × List Char) :=
  (splitAtFirst c l.reverse).map (fun p => (p.2.reverse, p.1.reverse))

/-- The amended classification: TCP iff the address starts with `:`
(whatever follows), or it contains `:` and the text after the last `:`
parses as an unsigned 16-bit integer under Rust's rules (optional
leading `+`, digits, value ≤ 65535). -/
def amendedTcp (s : String) : Bool :=
  strStartsWith s ':' ||
    (strContains s ':' &&
      (match splitAtLast ':' s.data with
       | some (_, after) => (rustParseU16 after).isSome
       | none => false))

/-! ## UTF-8 encoding (Rust `String::into_bytes`) -/

/-- UTF-8 encoding of one character (Rust strings are UTF-8, so
`String::into_bytes` yields this encoding). -/
def charUtf8 (c : Char) : List Nat :=
  let n := c.toNat
  if n < 128 then [n]
  else if n < 2048 then [192 + n / 64, 128 + n % 64]
  else if n < 65536 then [224 + n / 4096, 128 + (n / 64) % 64, 128 + n % 64]
  else [240 + n / 262144, 128 + (n / 4096) % 64, 128 + (n / 64) % 64, 128 + n % 64]

/-- Rust `String::into_bytes`: the UTF-8 bytes of a string. -/
def strBytes (s : String) : List Nat :=
  s.data.flatMap charUtf8

/-! ## An opaque model of Rust `f64`

The source only observes a float in two ways: Rust `Display`
(`val.to_string()`) and `serde_json::Number::from_f64` (which fails on
NaN and infinite values and otherwise yields the number whose JSON
serialization is ryu's shortest round-trip decimal text). A float is
therefore modelled by exactly those two observations. -/

structure F64 where
  /-- The Rust `Display` rendering of the float. -/
  display : String
  /-- `serde_json::Number::from_f64`: `none` for NaN/infinite values,
  otherwise the JSON number token serde prints for it. -/
  jsonNum : Option (List Char)

/-! ## JSON values (the image of `serde_json::Value` used by the code) -/

/-- The JSON values produced by `value_to_json`: numbers are either an
`i64` (from `Value::Int`) or a finite `f64` represented by its
canonical serde token (from `Value::Float`). -/
inductive Json where
  | null : Json
  | bool (b : Bool) : Json
  | intNum (i : Int) : Json
  | floatNum (t : List Char) : Json
  | str (s : String) : Json
  | arr (elems : List Json) : Json
  | obj (members : List (String × Json)) : Json

/-- The `\x7b` character. -/
def obrace : Char := Char.ofNat 123

/-- The `\x7d` character. -/
def cbrace : Char := Char.ofNat 125

/-- Lower-case hexadecimal digit character, for `d < 16`. -/
def hexDig (d : Nat) : Char :=
  if d < 10 then digitChar d else Char.ofNat (87 + d)

/-- serde_json's escaping of one string character: `"` and `\` get a
backslash escape, the control characters 0x08/0x09/0x0A/0x0C/0x0D get
their short escapes, other control characters get `\u00xx`, and
everything else is emitted verbatim. -/
def escapeChar (c : Char) : List Char :=
  if c = '"' then ['\\', '"']
  else if c = '\\' then ['\\', '\\']
  else if c.toNat < 32 then
    if c.toNat = 8 then ['\\', 'b']
    else if c.toNat = 9 then ['\\', 't']
    else if c.toNat = 10 then ['\\', 'n']
    else if c.toNat = 12 then ['\\', 'f']
    else if c.toNat = 13 then ['\\', 'r']
    else ['\\', 'u', '0', '0', hexDig (c.toNat / 16), hexDig (c.toNat % 16)]
  else [c]

/-- serde_json's escaping of a whole string (without the surrounding
quotes). -/
def escapeChars (cs : List Char) : List Char :=
  cs.flatMap escapeChar

/-- The keyword text of the JSON `null` literal. -/
def kwNull : List Char := ['n', 'u', 'l', 'l']

/-- The keyword text of the JSON `true` literal. -/
def kwTrue : List Char := ['t', 'r', 'u', 'e']

/-- The keyword text of the JSON `false` literal. -/
def kwFalse : List Char := ['f', 'a', 'l', 's', 'e']

mutual

/-- Compact serialization of a JSON value, as `serde_json::to_string`
produces it: no whitespace, object keys and strings escaped as in
`escapeChar`. -/
def renderJson : Json → List Char
  | .null => kwNull
  | .bool true => kwTrue
  | .bool false => kwFalse
  | .intNum i => intRender i
  | .floatNum t => t
  | .str s => '"' :: (escapeChars s.data ++ ['"'])
  | .arr es => '[' :: (renderElems es ++ [']'])
  | .obj ms => obrace :: (renderMembers ms ++ [cbrace])

/-- Comma-separated serialization of array elements. -/
def renderElems : List Json → List Char
  | [] => []
  | [e] => renderJson e
  | e :: es => renderJson e ++ ',' :: renderElems es

/-- Comma-separated serialization of object members. -/
def renderMembers : List (String × Json) → List Char
  | [] => []
  | [(k, v)] => '"' :: (escapeChars k.data ++ '"' :: ':' :: renderJson v)
  | (k, v) :: ms =>
    ('"' :: (escapeChars k.data ++ '"' :: ':' :: renderJson v)) ++
      ',' :: renderMembers ms

end

/-- String form of the compact serialization. -/
def Json.renderStr (j : Json) : String :=
  String.mk (renderJson j)

/-! ## A reference JSON parser (for the round-trip property)

The specification's round-trip property says that parsing the emitted
body back recovers the record; this recursive-descent parser for the
compact JSON emitted above is the spec-side "parse" of that sentence. -/

/-- Value of a hexadecimal digit character. -/
def hexVal (c : Char) : Option Nat :=
  if '0' ≤ c ∧ c ≤ '9' then some (c.toNat - 48)
  else if 'a' ≤ c ∧ c ≤ 'f' then some (c.toNat - 87)
  else if 'A' ≤ c ∧ c ≤ 'F' then some (c.toNat - 55)
  else none

/-- Decoding of a single-character escape. -/
def escDecode (e : Char) : Option Char :=
  if e = '"' then some '"'
  else if e = '\\' then some '\\'
  else if e = '/' then some '/'
  else if e = 'b' then some (Char.ofNat 8)
  else if e = 't' then some (Char.ofNat 9)
  else if e = 'n' then some (Char.ofNat 10)
  else if e = 'f' then some (Char.ofNat 12)
  else if e = 'r' then some (Char.ofNat 13)
  else none

/-- Parse the body of a JSON string up to (and consuming) the closing
quote; returns the decoded characters and the remaining input. -/
def parseStrChars : List Char → Option (List Char × List Char)
  | [] => none
  | c :: rest =>
    if c = '"' then some ([], rest)
    else if c = '\\' then
      match rest with
      | [] => none
      | e :: rest2 =>
        if e = 'u' then
          match rest2 with
          | h1 :: h2 :: h3 :: h4 :: rest3 =>
            match hexVal h1, hexVal h2, hexVal h3, hexVal h4 with
            | some a, some b, some c2, some d =>
              (parseStrChars rest3).map
                (fun p => (Char.ofNat (4096 * a + 256 * b + 16 * c2 + d) :: p.1, p.2))
            | _, _, _, _ => none
          | _ => none
        else
          match escDecode e with
          | some d => (parseStrChars rest2).map (fun p => (d :: p.1, p.2))
          | none => none
    else (parseStrChars rest).map (fun p => (c :: p.1, p.2))

/-- Characters that can occur in a JSON number token. -/
def isNumChar (c : Char) : Bool :=
  c.isDigit || c = '-' || c = '+' || c = '.' || c = 'e' || c = 'E'

/-- Characters that can start a JSON number token. -/
def isNumStart (c : Char) : Bool :=
  c.isDigit || c = '-'

/-- A nonempty all-digit list. -/
def digits1 (cs : List Char) : Bool :=
  !cs.isEmpty && cs.all Char.isDigit

/-- Strip one leading minus sign. -/
def stripNeg : List Char → List Char
  | '-' :: t => t
  | t => t

/-- Strip one leading sign (either). -/
def stripSign : List Char → List Char
  | '+' :: t => t
  | '-' :: t => t
  | t => t

/-- The exponent part of a JSON number token (empty, or `e`/`E`, an
optional sign, and digits). -/
def expPart : List Char → Bool
  | [] => true
  | e :: r => (e = 'e' || e = 'E') && digits1 (stripSign r)

/-- The fraction-then-exponent part of a JSON number token. -/
def fracExpPart : List Char → Bool
  | '.' :: r2 =>
    if r2.takeWhile Char.isDigit = ([] : List Char) then false
    else expPart (r2.dropWhile Char.isDigit)
  | r => expPart r

/-- The JSON number grammar: optional `-`, integer digits, optional
fraction, optional exponent. -/
def validNumToken (cs : List Char) : Bool :=
  if (stripNeg cs).takeWhile Char.isDigit = ([] : List Char) then false
  else fracExpPart ((stripNeg cs).dropWhile Char.isDigit)

/-- Integer form of a number token: optional `-`, then digits only. -/
def parseIntToken (cs : List Char) : Option Int :=
  match cs with
  | [] => none
  | c :: ds =>
    if c = '-' then
      if ¬ds.isEmpty ∧ ds.all Char.isDigit then some (-(charsToNat ds : Int))
      else none
    else if (c :: ds).all Char.isDigit then some ((charsToNat (c :: ds) : Int))
    else none

/-- Parse one JSON number by maximal munch over number characters:
an integer-form token yields `intNum`, any other valid token yields
`floatNum` (identified by its text, as a parse to `f64` would be). -/
def parseNumber (cs : List Char) : Option (Json × List Char) :=
  let tok := cs.takeWhile isNumChar
  let rest := cs.dropWhile isNumChar
  if ¬tok.isEmpty ∧ validNumToken tok = true then
    match parseIntToken tok with
    | some i => some (.intNum i, rest)
    | none => some (.floatNum tok, rest)
  else none

mutual

/-- Parse one JSON value from the input (fuel-indexed recursion). -/
def parseVal : Nat → List Char → Option (Json × List Char)
  | 0, _ => none
  | fuel + 1, cs =>
    match cs with
    | [] => none
    | c :: rest =>
      if c = 'n' then
        match rest with
        | 'u' :: 'l' :: 'l' :: r => some (.null, r)
        | _ => none
      else if c = 't' then
        match rest with
        | 'r' :: 'u' :: 'e' :: r => some (.bool true, r)
        | _ => none
      else if c = 'f' then
        match rest with
        | 'a' :: 'l' :: 's' :: 'e' :: r => some (.bool false, r)
        | _ => none
      else if c = '"' then
        (parseStrChars rest).map (fun p => (.str (String.mk p.1), p.2))
      else if c = '[' then
        match rest with
        | ']' :: r => some (.arr [], r)
        | _ => (parseElems fuel rest).map (fun p => (.arr p.1, p.2))
      else if c = obrace then
        match rest with
        | [] => none
        | r0 :: r =>
          if r0 = cbrace then some (.obj [], r)
          else (parseMembers fuel (r0 :: r)).map (fun p => (.obj p.1, p.2))
      else if isNumStart c then parseNumber (c :: rest)
      else none

/-- Parse one or more comma-separated array elements and the closing
bracket. -/
def parseElems : Nat → List Char → Option (List Json × List Char)
  | 0, _ => none
  | fuel + 1, cs =>
    match parseVal fuel cs with
    | none => none
    | some (j, r) =>
      match r with
      | ',' :: r2 => (parseElems fuel r2).map (fun p => (j :: p.1, p.2))
      | ']' :: r2 => some ([j], r2)
      | _ => none

/-- Parse one or more comma-separated object members and the closing
brace. -/
def parseMembers : Nat → List Char → Option (List (String × Json) × List Char)
  | 0, _ => none
  | fuel + 1, cs =>
    match cs with
    | '"' :: r0 =>
      (match parseStrChars r0 with
       | none => none
       | some (k, r1) =>
         match r1 with
         | ':' :: r2 =>
           (match parseVal fuel r2 with
            | none => none
            | some (v, r3) =>
              match r3 with
              | ',' :: r4 =>
                (parseMembers fuel r4).map
                  (fun p => ((String.mk k, v) :: p.1, p.2))
              | x :: r4 =>
                if x = cbrace then some ([(String.mk k, v)], r4) else none
              | [] => none)
         | _ => none)
    | _ => none

end

/-- Parse a complete JSON document: the whole input must be consumed. -/
def Json.parse (s : String) : Option Json :=
  match parseVal (s.data.length + 1) s.data with
  | some (j, []) => some j
  | _ => none

/-! ## Well-formedness of the JSON image of a value

The only constructor with a side condition is `floatNum`: its token
must be what serde actually emits for a finite `f64` — a well-formed
JSON number that is not in integer form (ryu always emits a `.` or an
exponent). All tokens produced by serde satisfy this. -/

/-- Well-formedness of a float token. -/
def floatTokenWf (t : List Char) : Bool :=
  t.all isNumChar && validNumToken t && (parseIntToken t).isNone &&
    isNumStart (t.headD 'x')

mutual

/-- Well-formedness of a JSON value (conditions on float tokens only). -/
def JsonWf : Json → Bool
  | .null => true
  | .bool _ => true
  | .intNum _ => true
  | .str _ => true
  | .floatNum t => floatTokenWf t
  | .arr es => JsonListWf es
  | .obj ms => JsonMembersWf ms

/-- Well-formedness of a list of JSON values. -/
def JsonListWf : List Json → Bool
  | [] => true
  | e :: es => JsonWf e && JsonListWf es

/-- Well-formedness of JSON object members. -/
def JsonMembersWf : List (String × Json) → Bool
  | [] => true
  | (_, v) :: ms => JsonWf v && JsonMembersWf ms

end

/-! ## Nushell values (`nu_protocol::Value`, as used by `serve.rs`)

The variants the source matches on are modelled directly; every other
variant (dates, durations, closures, …) only ever appears through its
Rust `Debug` formatting, so they are collapsed into one constructor
carrying that formatting. Spans are dropped. -/

inductive Value where
  | nothing : Value
  | str (val : String) : Value
  | int (val : Int) : Value
  | float (val : F64) : Value
  | binary (val : List Nat) : Value
  | bool (val : Bool) : Value
  | list (vals : List Value) : Value
  | record (val : List (String × Value)) : Value
  /-- Any other `nu_protocol::Value` variant (date, duration, closure,
  cell path, …), represented by its Rust `Debug` formatting. -/
  | other (debug : String) : Value

/-- `nu_protocol::Record` is an ordered sequence of column/value pairs;
`Record::push` appends without checking for duplicates. -/
abbrev Record := List (String × Value)

/-- `Record::new()`. -/
def Record.new : Record := []

/-- `Record::push`: appends the pair, duplicates and all. -/
def Record.push (r : Record) (k : String) (v : Value) : Record :=
  r ++ [(k, v)]

/-- `Record::get`: the value of the first column with the given name
(this is how Nushell looks a column up). -/
def Record.get (r : Record) (k : String) : Option Value :=
  (List.find? (fun p => p.1 = k) r).map Prod.snd

/-- `nu_protocol::PipelineMetadata`, restricted to the only field the
source reads. -/
structure PipelineMetadata where
  content_type : Option String

/-- `nu_protocol::PipelineData`, as consumed by
`pipeline_data_to_response`: a `ListStream` is its (finite) list of
produced values; a `ByteStream` is `some` collected bytes when it has a
reader whose `read_to_end` succeeds, `none` when it has no reader. -/
inductive PipelineData where
  | empty : PipelineData
  | value (v : Value) (meta : Option PipelineMetadata) : PipelineData
  | listStream (vals : List Value) (meta : Option PipelineMetadata) : PipelineData
  | byteStream (reader : Option (List Nat)) (meta : Option PipelineMetadata) : PipelineData

/-! ## The tiny-http `Response` type

Modelled from the spec: the repository vendors a fork of tiny-http but
only its `connection.rs` is among the sources here; the `Response`
builders are reconstructed from the specification's response-mapping
contract (§4.5): a fresh data response carries status 200 and no
headers; `from_string` additionally sets the content type
`text/plain; charset=utf-8`; `with_status_code` and `with_header`
replace the status and append a header. -/

structure Response where
  status : Nat
  headers : List (String × String)
  body : List Nat

/-- Modelled from the spec: `tiny_http::Response::from_data` — status
200, no headers, the given bytes as body. -/
def Response.from_data (data : List Nat) : Response :=
  { status := 200, headers := [], body := data }

/-- Modelled from the spec: `tiny_http::Response::from_string` — status
200, content type `text/plain; charset=utf-8`, the string's UTF-8 bytes
as body. -/
def Response.from_string (s : String) : Response :=
  { status := 200
    headers := [("Content-Type", "text/plain; charset=utf-8")]
    body := strBytes s }

/-- `tiny_http::Response::with_status_code`. -/
def Response.with_status_code (r : Response) (code : Nat) : Response :=
  { r with status := code }

/-- `tiny_http::Response::with_header`: appends a header. -/
def Response.with_header (r : Response) (h : String × String) : Response :=
  { r with headers := r.headers ++ [h] }

/-- The value of the response's first `Content-Type` header, if any. -/
def Response.contentType (r : Response) : Option String :=
  (List.find? (fun p => p.1 = "Content-Type") r.headers).map Prod.snd

/-! ## `serve.rs` response mapping -/

/-- `infer_content_type` (`serve.rs`, lines 326–335): the metadata's
content type if present, else the default, else
`text/plain; charset=utf-8`. -/
def infer_content_type (meta : Option PipelineMetadata) (dflt : Option String) :
    String :=
  match meta.bind (fun m => m.content_type) with
  | some s => s
  | none =>
    match dflt with
    | some s => s
    | none => "text/plain; charset=utf-8"

/-- `content_type_header` (`serve.rs`, lines 338–341). -/
def content_type_header (content_type : String) : String × String :=
  ("Content-Type", content_type)

/-- Rust `Debug` formatting of a `Value::Binary` (spans are dropped by
the embedding, so the text is modelled up to the byte content; no claim
depends on its exact shape). -/
def binaryDebug (b : List Nat) : String :=
  "Binary " ++ toString b

/-- The Rust `Debug` formatting of the `Value` variants that reach the
fall-through arms of `value_to_bytes` / `value_to_json`. -/
def valueDebug : Value → String
  | .binary b => binaryDebug b
  | .other d => d
  | _ => ""

/-- serde_json `Map::insert` under the `preserve_order` feature
(an `IndexMap`): replaces the value in place when the key exists,
otherwise appends. Modelled from the spec: the dependency manifest is
not among the sources; the spec states that records become JSON objects
preserving key order. -/
def mapInsert (m : List (String × Json)) (k : String) (v : Json) :
    List (String × Json) :=
  if m.any (fun p => p.1 = k) then
    m.map (fun p => if p.1 = k then (k, v) else p)
  else m ++ [(k, v)]

mutual

/-- `value_to_json` (`serve.rs`, lines 363–384). -/
def value_to_json : Value → Json
  | .nothing => .null
  | .bool b => .bool b
  | .int i => .intNum i
  | .float f =>
    match f.jsonNum with
    | some t => .floatNum t
    | none => .null
  | .str s => .str s
  | .list vs => .arr (jsonList vs)
  | .record fs => .obj (jsonMembers fs [])
  | .binary b => .str (valueDebug (.binary b))
  | .other d => .str (valueDebug (.other d))

/-- `vals.iter().map(value_to_json).collect()`. -/
def jsonList : List Value → List Json
  | [] => []
  | v :: vs => value_to_json v :: jsonList vs

/-- The record loop of `value_to_json`: successive `map.insert` into an
initially empty map. -/
def jsonMembers : List (String × Value) → List (String × Json) →
    List (String × Json)
  | [], acc => acc
  | (k, v) :: fs, acc => jsonMembers fs (mapInsert acc k (value_to_json v))

end

/-- `value_to_bytes` (`serve.rs`, lines 344–360). -/
def value_to_bytes : Value → List Nat
  | .nothing => []
  | .str s => strBytes s
  | .int i => strBytes (String.mk (intRender i))
  | .float f => strBytes f.display
  | .binary b => b
  | .bool b => strBytes (if b then "true" else "false")
  | .list vs => strBytes ((value_to_json (.list vs)).renderStr)
  | .record fs => strBytes ((value_to_json (.record fs)).renderStr)
  | .other d => strBytes (valueDebug (.other d))

/-- `pipeline_data_to_response` (`serve.rs`, lines 255–323). The
`ByteStream` read-error arm is the one case not modelled: it depends on
an I/O failure, which the embedding does not represent. -/
def pipeline_data_to_response : PipelineData → Response
  | .empty => (Response.from_data []).with_status_code 204
  | .value v meta =>
    match v with
    | .nothing => (Response.from_data []).with_status_code 204
    | .record fs =>
      (Response.from_data (value_to_bytes (.record fs))).with_header
        (content_type_header (infer_content_type meta (some "application/json")))
    | .list vs =>
      (Response.from_data (value_to_bytes (.list vs))).with_header
        (content_type_header (infer_content_type meta (some "application/json")))
    | v =>
      (Response.from_data (value_to_bytes v)).with_header
        (content_type_header
          (infer_content_type meta (some "text/plain; charset=utf-8")))
  | .listStream vals meta =>
    (Response.from_data
        (vals.foldl (fun body v => body ++ value_to_bytes v ++ [10]) [])).with_header
      (content_type_header (infer_content_type meta (some "application/json")))
  | .byteStream reader meta =>
    match reader with
    | some body =>
      (Response.from_data body).with_header
        (content_type_header
          (infer_content_type meta (some "application/octet-stream")))
    | none =>
      (Response.from_string "Error: ByteStream has no reader").with_status_code 500

/-- The error arm of `handle_request` (`serve.rs`, lines 200–208): the
closure failed with an error whose display text is `errText`. -/
def error_response (errText : String) : Response :=
  (Response.from_string ("Error: " ++ errText)).with_status_code 500

/-- `handle_request` (`serve.rs`, lines 174–210), observed at the
response: evaluate the closure result to a response. -/
def handle_request (result : Except String PipelineData) : Response :=
  match result with
  | .ok pd => pipeline_data_to_response pd
  | .error e => error_response e

/-! ## `request_to_value` (`serve.rs`, lines 213–252) -/

/-- The parts of a `tiny_http::Request` the source reads. -/
structure Request where
  method : String
  url : String
  headers : List (String × String)
  remote_addr : Option String

/-- The query-parameter pairs of a URL, exactly as `request_to_value`
builds them: everything after the first `?`, split on `&`, each segment
split at its first `=`; segments without `=` are skipped; no
percent-decoding. -/
def queryPairs (url : String) : List (String × String) :=
  match splitAtFirst '?' url.data with
  | none => []
  | some (_, q) =>
    (splitChar '&' q).filterMap
      (fun seg =>
        (splitAtFirst '=' seg).map
          (fun p => (String.mk p.1, String.mk p.2)))

/-- The `query` record built by `request_to_value`: one `push` per
query pair, in order. -/
def query_record_of (url : String) : Record :=
  (queryPairs url).foldl (fun acc p => acc.push p.1 (.str p.2)) Record.new

/-- The `headers` record built by `request_to_value`: one `push` per
header, in order (duplicates preserved). -/
def headers_record_of (headers : List (String × String)) : Record :=
  headers.foldl (fun acc h => acc.push h.1 (.str h.2)) Record.new

/-- The record built by `request_to_value`. -/
def request_record (r : Request) : Record :=
  let base : Record :=
    ((((Record.new.push "method" (.str r.method)).push
        "path" (.str r.url)).push
        "headers" (.record (headers_record_of r.headers))).push
        "query" (.record (query_record_of r.url)))
  match r.remote_addr with
  | some addr => base.push "remote_addr" (.str addr)
  | none => base

/-- `request_to_value`: the record value handed to the closure. -/
def request_to_value (r : Request) : Value :=
  .record (request_record r)

/-! ## Unix socket path resolution (`serve.rs`, lines 93–106) -/

/-- Rust `str::ends_with(c)` for a character pattern. -/
def strEndsWith (s : String) (c : Char) : Bool :=
  s.data.getLast? = some c

/-- Rust `Path::new(base).join(p)` on Unix: an absolute `p` replaces the
base; otherwise a separator is inserted unless the base is empty or
already ends with one. -/
def joinPath (base p : String) : String :=
  if strStartsWith p '/' then p
  else if base = "" then p
  else if strEndsWith base '/' then base ++ p
  else base ++ "/" ++ p

/-- The bind path computed by `serve` (`serve.rs`, lines 93–106): a
non-TCP address not starting with `/` is joined to the caller's current
directory; everything else is used unchanged. -/
def resolved_socket_path (socket_path cwd : String) : String :=
  if ¬is_tcp socket_path ∧ ¬strStartsWith socket_path '/' then
    joinPath cwd socket_path
  else socket_path

/-! ## Structural size of a JSON value (drives the parser fuel) -/

mutual

/-- Node count of a JSON value. -/
def jsize : Json → Nat
  | .null => 1
  | .bool _ => 1
  | .intNum _ => 1
  | .floatNum _ => 1
  | .str _ => 1
  | .arr es => 1 + jlistSize es
  | .obj ms => 1 + jmembersSize ms

/-- Node count of a list of JSON values. -/
def jlistSize : List Json → Nat
  | [] => 0
  | e :: es => 1 + jsize e + jlistSize es

/-- Node count of JSON object members. -/
def jmembersSize : List (String × Json) → Nat
  | [] => 0
  | (_, v) :: ms => 1 + jsize v + jmembersSize ms

end

/-! ### Lemmas about `splitChar` -/

theorem splitChar_ne_nil (c : Char) (l : List Char) : splitChar c l ≠ [] := by
  induction l with
  | nil => simp [splitChar]
  | cons x xs ih =>
    unfold splitChar
    split
    · simp
    · cases h : splitChar c xs <;> simp

theorem splitChar_cons_eq {c x : Char} {xs : List Char} (h : x = c) :
    splitChar c (x :: xs) = [] :: splitChar c xs := by
  conv_lhs => unfold splitChar
  rw [if_pos h]

theorem splitChar_cons_ne {c x : Char} {xs b : List Char} {t : List (List Char)}
    (h : ¬x = c) (hs : splitChar c xs = b :: t) :
    splitChar c (x :: xs) = (x :: b) :: t := by
  conv_lhs => unfold splitChar
  rw [if_neg h, hs]

theorem splitChar_of_not_mem {c : Char} {l : List Char} (h : c ∉ l) :
    splitChar c l = [l] := by
  induction l with
  | nil => rfl
  | cons x xs ih =>
    simp only [List.mem_cons, not_or] at h
    unfold splitChar
    rw [if_neg (by exact fun hx => h.1 hx.symm), ih h.2]

theorem splitChar_length_ge_two {c : Char} {l : List Char} (h : c ∈ l) :
    2 ≤ (splitChar c l).length := by
  induction l with
  | nil => simp at h
  | cons x xs ih =>
    unfold splitChar
    by_cases hx : x = c
    · rw [if_pos hx]
      have := splitChar_ne_nil c xs
      cases hs : splitChar c xs with
      | nil => exact absurd hs this
      | cons a t => simp [List.length]
    · rw [if_neg hx]
      have hmem : c ∈ xs := by
        rcases List.mem_cons.mp h with h1 | h2
        · exact absurd h1.symm hx
        · exact h2
      have h2 := ih hmem
      cases hs : splitChar c xs with
      | nil => exact absurd hs (splitChar_ne_nil c xs)
      | cons a t => simpa [hs] using h2

/-- Every list containing `c` decomposes at the last occurrence of `c`. -/
theorem decomp_at_last {c : Char} {l : List Char} (h : c ∈ l) :
    ∃ a d, l = a ++ c :: d ∧ c ∉ d := by
  induction l with
  | nil => simp at h
  | cons x xs ih =>
    by_cases hmem : c ∈ xs
    · obtain ⟨a, d, hl, hd⟩ := ih hmem
      exact ⟨x :: a, d, by simp [hl], hd⟩
    · have hx : x = c := by
        rcases List.mem_cons.mp h with h1 | h2
        · exact h1.symm
        · exact absurd h2 hmem
      exact ⟨[], xs, by simp [hx], hmem⟩

/-- The last segment produced by `splitChar` is the text after the last
occurrence of the separator. -/
theorem splitChar_getLast {c : Char} {a d : List Char} (hd : c ∉ d) :
    ((splitChar c (a ++ c :: d)).getLast?).getD [] = d := by
  induction a with
  | nil =>
    simp only [List.nil_append]
    unfold splitChar
    rw [if_pos rfl, splitChar_of_not_mem hd]
    rfl
  | cons x a' ih =>
    have hmem : c ∈ a' ++ c :: d := by simp
    rw [List.cons_append]
    by_cases hx : x = c
    · rw [splitChar_cons_eq hx]
      cases hs : splitChar c (a' ++ c :: d) with
      | nil => exact absurd hs (splitChar_ne_nil c _)
      | cons b t =>
        rw [hs] at ih
        simpa using ih
    · have hlen := splitChar_length_ge_two hmem
      cases hs : splitChar c (a' ++ c :: d) with
      | nil => exact absurd hs (splitChar_ne_nil c _)
      | cons b t =>
        rw [splitChar_cons_ne hx hs]
        rw [hs] at hlen ih
        cases t with
        | nil => simp at hlen
        | cons b2 t2 => simpa using ih

/-! ### Decimal digits -/

theorem toNat_ofNat_valid {n : Nat} (h : n < 55296) : (Char.ofNat n).toNat = n := by
  have hv : Nat.isValidChar n := Or.inl h
  simp [Char.ofNat, hv, Char.toNat, Char.ofNatAux, UInt32.toNat, BitVec.toNat_ofNatLt]

theorem digitVal_digitChar {d : Nat} (h : d < 10) : digitVal (digitChar d) = d := by
  unfold digitVal digitChar
  rw [toNat_ofNat_valid (by omega)]
  omega

theorem digitChar_isDigit {d : Nat} (h : d < 10) : (digitChar d).isDigit = true := by
  interval_cases d <;> decide

theorem charsToNat_foldl (cs : List Char) (acc : Nat) :
    cs.foldl (fun a c => a * 10 + digitVal c) acc =
      acc * 10 ^ cs.length + charsToNat cs := by
  induction cs generalizing acc with
  | nil => simp [charsToNat]
  | cons c cs ih =>
    simp only [List.foldl_cons, List.length_cons, charsToNat] at *
    rw [ih, ih (0 * 10 + digitVal c)]
    ring

theorem charsToNat_append_singleton (a : List Char) (c : Char) :
    charsToNat (a ++ [c]) = charsToNat a * 10 + digitVal c := by
  unfold charsToNat
  rw [List.foldl_append]
  simp

theorem charsToNat_natDigits (n : Nat) : charsToNat (natDigits n) = n := by
  induction n using Nat.strong_induction_on with
  | _ n ih =>
    unfold natDigits
    split
    · next h =>
      have : charsToNat [digitChar n] = digitVal (digitChar n) := by
        simp [charsToNat]
      rw [this, digitVal_digitChar h]
    · next h =>
      rw [charsToNat_append_singleton,
        ih (n / 10) (Nat.div_lt_self (by omega) (by omega)),
        digitVal_digitChar (Nat.mod_lt n (by omega))]
      omega

theorem natDigits_all_digit (n : Nat) :
    (natDigits n).all Char.isDigit = true := by
  induction n using Nat.strong_induction_on with
  | _ n ih =>
    unfold natDigits
    split
    · next h => simp [digitChar_isDigit h]
    · next h =>
      rw [List.all_append]
      have h1 := ih (n / 10) (Nat.div_lt_self (by omega) (by omega))
      have h2 := digitChar_isDigit (Nat.mod_lt n (show 0 < 10 by omega))
      simp [h1, h2]

theorem natDigits_ne_nil (n : Nat) : natDigits n ≠ [] := by
  unfold natDigits
  split <;> simp

/-! ### takeWhile / dropWhile splitting -/

theorem takeWhile_all_append {p : Char → Bool} {a b : List Char}
    (ha : a.all p = true) (hb : b.takeWhile p = []) :
    (a ++ b).takeWhile p = a := by
  induction a with
  | nil => simpa using hb
  | cons x xs ih =>
    simp only [List.all_cons, Bool.and_eq_true] at ha
    simp [List.takeWhile_cons, ha.1, ih ha.2]

theorem dropWhile_all_append {p : Char → Bool} {a b : List Char}
    (ha : a.all p = true) (hb : b.takeWhile p = []) :
    (a ++ b).dropWhile p = b := by
  induction a with
  | nil =>
    cases b with
    | nil => rfl
    | cons c t =>
      simp only [List.takeWhile_cons] at hb
      by_cases hc : p c
      · simp [hc] at hb
      · simp [List.dropWhile, hc]
  | cons x xs ih =>
    simp only [List.all_cons, Bool.and_eq_true] at ha
    simp [List.dropWhile_cons, ha.1, ih ha.2]

theorem takeWhile_all_self {p : Char → Bool} {a : List Char}
    (ha : a.all p = true) : a.takeWhile p = a := by
  have := takeWhile_all_append (b := []) ha (by simp)
  simpa using this

theorem dropWhile_all_nil {p : Char → Bool} {a : List Char}
    (ha : a.all p = true) : a.dropWhile p = [] := by
  have := dropWhile_all_append (b := []) ha (by simp)
  simpa using this

/-! ### Number tokens -/

theorem isNumChar_of_isDigit {c : Char} (h : c.isDigit = true) :
    isNumChar c = true := by
  simp [isNumChar, h]

theorem all_isNumChar_of_all_isDigit {l : List Char}
    (h : l.all Char.isDigit = true) : l.all isNumChar = true := by
  simp only [List.all_eq_true] at *
  exact fun c hc => isNumChar_of_isDigit (h c hc)

theorem intRender_ne_nil (i : Int) : intRender i ≠ [] := by
  unfold intRender
  split
  · simp
  · exact natDigits_ne_nil _

theorem intRender_all_num (i : Int) : (intRender i).all isNumChar = true := by
  unfold intRender
  split
  · simp only [List.all_cons, Bool.and_eq_true]
    exact ⟨by decide, all_isNumChar_of_all_isDigit (natDigits_all_digit _)⟩
  · exact all_isNumChar_of_all_isDigit (natDigits_all_digit _)

theorem natDigits_head_digit (n : Nat) :
    ∃ c t, natDigits n = c :: t ∧ c.isDigit = true := by
  cases h : natDigits n with
  | nil => exact absurd h (natDigits_ne_nil n)
  | cons c t =>
    refine ⟨c, t, rfl, ?_⟩
    have := natDigits_all_digit n
    rw [h] at this
    simp only [List.all_cons, Bool.and_eq_true] at this
    exact this.1

theorem intRender_head (i : Int) :
    ∃ c t, intRender i = c :: t ∧ isNumStart c = true := by
  unfold intRender
  split
  · exact ⟨'-', _, rfl, by decide⟩
  · obtain ⟨c, t, h, hd⟩ := natDigits_head_digit i.natAbs
    exact ⟨c, t, h, by simp [isNumStart, hd]⟩

theorem stripNeg_cons_ne {c : Char} {t : List Char} (h : ¬c = '-') :
    stripNeg (c :: t) = c :: t := by
  unfold stripNeg
  split
  · next heq =>
    injection heq with h1 _
    exact absurd h1 h
  · rfl

theorem parseIntToken_intRender (i : Int) :
    parseIntToken (intRender i) = some i := by
  unfold intRender
  split
  · next hneg =>
    simp only [parseIntToken, if_true]
    rw [if_pos ⟨by simpa using natDigits_ne_nil i.natAbs, natDigits_all_digit _⟩,
      charsToNat_natDigits]
    have : ((i.natAbs : Int)) = -i := by omega
    rw [this, neg_neg]
  · next hpos =>
    obtain ⟨c, t, h, hd⟩ := natDigits_head_digit i.natAbs
    rw [h]
    simp only [parseIntToken]
    have hc : ¬c = '-' := by
      intro he
      rw [he] at hd
      exact absurd hd (by decide)
    rw [if_neg hc, if_pos (by rw [← h]; exact natDigits_all_digit _), ← h,
      charsToNat_natDigits]
    congr 1
    omega

theorem validNumToken_natDigits (m : Nat) :
    validNumToken (natDigits m) = true := by
  obtain ⟨c, t, h, hd⟩ := natDigits_head_digit m
  have hc : ¬c = '-' := by
    intro he
    rw [he] at hd
    exact absurd hd (by decide)
  unfold validNumToken
  rw [h, stripNeg_cons_ne hc, ← h, takeWhile_all_self (natDigits_all_digit m),
    dropWhile_all_nil (natDigits_all_digit m),
    if_neg (by simpa using natDigits_ne_nil m)]
  rfl

theorem validNumToken_intRender (i : Int) :
    validNumToken (intRender i) = true := by
  unfold intRender
  split
  · next hneg =>
    unfold validNumToken
    have h1 : stripNeg ('-' :: natDigits i.natAbs) = natDigits i.natAbs := rfl
    rw [h1, takeWhile_all_self (natDigits_all_digit _),
      dropWhile_all_nil (natDigits_all_digit _),
      if_neg (by simpa using natDigits_ne_nil i.natAbs)]
    rfl
  · exact validNumToken_natDigits i.natAbs

theorem parseNumber_intRender (i : Int) (rest : List Char)
    (hb : rest.takeWhile isNumChar = []) :
    parseNumber (intRender i ++ rest) = some (.intNum i, rest) := by
  simp only [parseNumber]
  rw [takeWhile_all_append (intRender_all_num i) hb,
    dropWhile_all_append (intRender_all_num i) hb,
    if_pos ⟨by simpa using intRender_ne_nil i, validNumToken_intRender i⟩,
    parseIntToken_intRender]

theorem floatTokenWf_spec {t : List Char} (h : floatTokenWf t = true) :
    t.all isNumChar = true ∧ validNumToken t = true ∧ parseIntToken t = none ∧
      ∃ c r, t = c :: r ∧ isNumStart c = true := by
  unfold floatTokenWf at h
  simp only [Bool.and_eq_true, Option.isNone_iff_eq_none] at h
  obtain ⟨⟨⟨h1, h2⟩, h3⟩, h4⟩ := h
  refine ⟨h1, h2, h3, ?_⟩
  cases t with
  | nil => exact absurd h4 (by decide)
  | cons c r => exact ⟨c, r, rfl, by simpa using h4⟩

theorem parseNumber_floatToken {t : List Char} (h : floatTokenWf t = true)
    (rest : List Char) (hb : rest.takeWhile isNumChar = []) :
    parseNumber (t ++ rest) = some (.floatNum t, rest) := by
  obtain ⟨h1, h2, h3, c, r, ht, _⟩ := floatTokenWf_spec h
  simp only [parseNumber]
  rw [takeWhile_all_append h1 hb, dropWhile_all_append h1 hb,
    if_pos ⟨by simp [ht], h2⟩, h3]

/-! ### String escaping round-trip -/

theorem hexVal_hexDig {d : Nat} (h : d < 16) : hexVal (hexDig d) = some d := by
  interval_cases d <;> decide

theorem parseStrChars_escape (cs tail : List Char) :
    parseStrChars (escapeChars cs ++ '"' :: tail) = some (cs, tail) := by
  induction cs with
  | nil =>
    simp only [escapeChars, List.flatMap_nil, List.nil_append]
    rw [parseStrChars.eq_def]
    simp
  | cons c cs ih =>
    have hstep : escapeChars (c :: cs) = escapeChar c ++ escapeChars cs := by
      simp [escapeChars]
    rw [hstep, List.append_assoc]
    unfold escapeChar
    by_cases h1 : c = '"'
    · subst h1
      rw [if_pos rfl]
      simp only [List.cons_append, List.nil_append]
      rw [parseStrChars.eq_def]
      simp +decide [escDecode, ih]
    · rw [if_neg h1]
      by_cases h2 : c = '\\'
      · subst h2
        rw [if_pos rfl]
        simp only [List.cons_append, List.nil_append]
        rw [parseStrChars.eq_def]
        simp +decide [escDecode, ih]
      · rw [if_neg h2]
        by_cases h3 : c.toNat < 32
        · rw [if_pos h3]
          by_cases h4 : c.toNat = 8
          · rw [if_pos h4]
            have hc : Char.ofNat 8 = c := by rw [← h4, Char.ofNat_toNat]
            simp only [List.cons_append, List.nil_append]
            rw [parseStrChars.eq_def]
            simp +decide [escDecode, ih]
            exact hc
          · rw [if_neg h4]
            by_cases h5 : c.toNat = 9
            · rw [if_pos h5]
              have hc : Char.ofNat 9 = c := by rw [← h5, Char.ofNat_toNat]
              simp only [List.cons_append, List.nil_append]
              rw [parseStrChars.eq_def]
              simp +decide [escDecode, ih]
              exact hc
            · rw [if_neg h5]
              by_cases h6 : c.toNat = 10
              · rw [if_pos h6]
                have hc : Char.ofNat 10 = c := by rw [← h6, Char.ofNat_toNat]
                simp only [List.cons_append, List.nil_append]
                rw [parseStrChars.eq_def]
                simp +decide [escDecode, ih]
                exact hc
              · rw [if_neg h6]
                by_cases h7 : c.toNat = 12
                · rw [if_pos h7]
                  have hc : Char.ofNat 12 = c := by rw [← h7, Char.ofNat_toNat]
                  simp only [List.cons_append, List.nil_append]
                  rw [parseStrChars.eq_def]
                  simp +decide [escDecode, ih]
                  exact hc
                · rw [if_neg h7]
                  by_cases h8 : c.toNat = 13
                  · rw [if_pos h8]
                    have hc : Char.ofNat 13 = c := by rw [← h8, Char.ofNat_toNat]
                    simp only [List.cons_append, List.nil_append]
                    rw [parseStrChars.eq_def]
                    simp +decide [escDecode, ih]
                    exact hc
                  · rw [if_neg h8]
                    have h0 : hexVal '0' = some 0 := by decide
                    have hhi : hexVal (hexDig (c.toNat / 16)) = some (c.toNat / 16) :=
                      hexVal_hexDig (by omega)
                    have hlo : hexVal (hexDig (c.toNat % 16)) = some (c.toNat % 16) :=
                      hexVal_hexDig (by omega)
                    have hc : Char.ofNat (16 * (c.toNat / 16) + c.toNat % 16) = c := by
                      have h9 : 16 * (c.toNat / 16) + c.toNat % 16 = c.toNat := by omega
                      rw [h9, Char.ofNat_toNat]
                    simp only [List.cons_append, List.nil_append]
                    rw [parseStrChars.eq_def]
                    simp +decide [h0, ih, hhi, hlo]
                    exact hc
        · rw [if_neg h3]
          simp only [List.cons_append, List.nil_append]
          have hps : parseStrChars (c :: (escapeChars cs ++ '"' :: tail)) =
              (parseStrChars (escapeChars cs ++ '"' :: tail)).map
                (fun p => (c :: p.1, p.2)) := by
            rw [parseStrChars.eq_def]
            simp [h1, h2]
          rw [hps, ih]
          rfl

/-! ### The parse–render round-trip -/

theorem jsize_pos (j : Json) : 1 ≤ jsize j := by
  cases j <;> simp [jsize]

theorem string_mk_data (s : String) : String.mk s.data = s := rfl

theorem takeWhile_num_nil_cons {c : Char} {rest : List Char}
    (h : isNumChar c = false) :
    (c :: rest).takeWhile isNumChar = [] := by
  simp [List.takeWhile_cons, h]

theorem renderJson_head_ne_rbracket (j : Json) (hwf : JsonWf j = true) :
    ∃ c t, renderJson j = c :: t ∧ ¬c = ']' := by
  cases j with
  | null => exact ⟨'n', _, rfl, by decide⟩
  | bool b =>
    cases b
    · exact ⟨'f', _, rfl, by decide⟩
    · exact ⟨'t', _, rfl, by decide⟩
  | intNum i =>
    obtain ⟨c, t, hr, hst⟩ := intRender_head i
    exact ⟨c, t, by simp [renderJson, hr],
      fun he => absurd (he ▸ hst) (by decide)⟩
  | floatNum t =>
    obtain ⟨_, _, _, c, r, ht, hst⟩ := floatTokenWf_spec (by simpa [JsonWf] using hwf)
    exact ⟨c, r, by simp [renderJson, ht],
      fun he => absurd (he ▸ hst) (by decide)⟩
  | str s => exact ⟨'"', _, rfl, by decide⟩
  | arr es => exact ⟨'[', _, rfl, by decide⟩
  | obj ms => exact ⟨obrace, _, rfl, by decide⟩

set_option maxHeartbeats 1600000 in
/-- The parser recovers every well-formed rendered JSON value (mutual
statement over values, array elements, and object members, indexed by
parser fuel). -/
theorem parse_render_aux (fuel : Nat) :
    (∀ j rest, JsonWf j = true → jsize j ≤ fuel → rest.takeWhile isNumChar = [] →
      parseVal fuel (renderJson j ++ rest) = some (j, rest)) ∧
    (∀ es rest, es ≠ [] → JsonListWf es = true → jlistSize es ≤ fuel →
      parseElems fuel (renderElems es ++ ']' :: rest) = some (es, rest)) ∧
    (∀ ms rest, ms ≠ [] → JsonMembersWf ms = true → jmembersSize ms ≤ fuel →
      parseMembers fuel (renderMembers ms ++ cbrace :: rest) = some (ms, rest)) := by
  induction fuel with
  | zero =>
    refine ⟨fun j _ _ hs _ => absurd hs (by have := jsize_pos j; omega),
      fun es rest hne hwf hs => ?_, fun ms rest hne hwf hs => ?_⟩
    · cases es with
      | nil => exact absurd rfl hne
      | cons e es =>
        exfalso
        have := jsize_pos e
        simp [jlistSize] at hs
    · cases ms with
      | nil => exact absurd rfl hne
      | cons m ms =>
        exfalso
        obtain ⟨k, v⟩ := m
        have := jsize_pos v
        simp [jmembersSize] at hs
  | succ fuel ih =>
    obtain ⟨ihV, ihE, ihM⟩ := ih
    refine ⟨fun j rest hwf hs hb => ?_, fun es rest hne hwf hs => ?_,
      fun ms rest hne hwf hs => ?_⟩
    · cases j with
      | null =>
        simp only [renderJson, kwNull, List.cons_append, List.nil_append]
        rw [parseVal.eq_def]
        simp +decide
      | bool b =>
        cases b <;>
          (simp only [renderJson, kwNull, kwTrue, kwFalse, List.cons_append,
             List.nil_append]
           rw [parseVal.eq_def]
           simp +decide)
      | str s =>
        simp only [renderJson, List.cons_append, List.nil_append, List.append_assoc]
        rw [parseVal.eq_def]
        simp +decide [parseStrChars_escape, string_mk_data]
      | intNum i =>
        obtain ⟨c, t, hr, hst⟩ := intRender_head i
        have hn : ¬c = 'n' := fun he => absurd (he ▸ hst) (by decide)
        have ht : ¬c = 't' := fun he => absurd (he ▸ hst) (by decide)
        have hf : ¬c = 'f' := fun he => absurd (he ▸ hst) (by decide)
        have hq : ¬c = '"' := fun he => absurd (he ▸ hst) (by decide)
        have hlb : ¬c = '[' := fun he => absurd (he ▸ hst) (by decide)
        have hob : ¬c = obrace := fun he => absurd (he ▸ hst) (by decide)
        simp only [renderJson, hr, List.cons_append]
        rw [parseVal.eq_def]
        simp +decide [hn, ht, hf, hq, hlb, hob, hst]
        rw [← List.cons_append, ← hr]
        exact parseNumber_intRender i rest hb
      | floatNum tk =>
        have hwf' : floatTokenWf tk = true := by simpa [JsonWf] using hwf
        obtain ⟨hall, hval, hint, c, r, htk, hst⟩ := floatTokenWf_spec hwf'
        have hn : ¬c = 'n' := fun he => absurd (he ▸ hst) (by decide)
        have ht : ¬c = 't' := fun he => absurd (he ▸ hst) (by decide)
        have hf : ¬c = 'f' := fun he => absurd (he ▸ hst) (by decide)
        have hq : ¬c = '"' := fun he => absurd (he ▸ hst) (by decide)
        have hlb : ¬c = '[' := fun he => absurd (he ▸ hst) (by decide)
        have hob : ¬c = obrace := fun he => absurd (he ▸ hst) (by decide)
        have hpn := parseNumber_floatToken hwf' rest hb
        rw [htk] at hpn
        simp only [List.cons_append] at hpn
        simp only [renderJson, htk, List.cons_append]
        rw [parseVal.eq_def]
        simp +decide [hn, ht, hf, hq, hlb, hob, hst]
        exact hpn
      | arr es =>
        cases es with
        | nil =>
          simp only [renderJson, renderElems, List.nil_append, List.cons_append]
          rw [parseVal.eq_def]
          simp +decide
        | cons e es' =>
          have hwfl : JsonListWf (e :: es') = true := by simpa [JsonWf] using hwf
          have hwfe : JsonWf e = true := by
            have := hwfl
            simp only [JsonListWf, Bool.and_eq_true] at this
            exact this.1
          have hsz : jlistSize (e :: es') ≤ fuel := by
            simp only [jsize] at hs
            omega
          obtain ⟨c0, t0, hre, hc0⟩ := renderJson_head_ne_rbracket e hwfe
          have hrE : ∃ t1, renderElems (e :: es') = c0 :: t1 := by
            cases es' with
            | nil => exact ⟨t0, by simp [renderElems, hre]⟩
            | cons e2 es'' =>
              exact ⟨t0 ++ ',' :: renderElems (e2 :: es''),
                by simp [renderElems, hre]⟩
          obtain ⟨t1, hrE⟩ := hrE
          have h2 := ihE (e :: es') rest (by simp) hwfl hsz
          simp only [renderJson, List.cons_append, List.append_assoc, hrE]
          rw [parseVal.eq_def]
          simp +decide [hc0]
          rw [← List.cons_append, ← hrE, h2]
      | obj ms =>
        cases ms with
        | nil =>
          simp only [renderJson, renderMembers, List.nil_append, List.cons_append]
          rw [parseVal.eq_def]
          simp +decide
        | cons m ms' =>
          obtain ⟨k, v⟩ := m
          have hwfm : JsonMembersWf ((k, v) :: ms') = true := by
            simpa [JsonWf] using hwf
          have hszm : jmembersSize ((k, v) :: ms') ≤ fuel := by
            simp only [jsize] at hs
            omega
          have h2 := ihM ((k, v) :: ms') rest (by simp) hwfm hszm
          have hrm : ∃ t1, renderMembers ((k, v) :: ms') = '"' :: t1 := by
            cases ms' with
            | nil =>
              exact ⟨escapeChars k.data ++ '"' :: ':' :: renderJson v,
                by simp [renderMembers]⟩
            | cons m2 ms'' =>
              exact ⟨escapeChars k.data ++ '"' :: ':' :: renderJson v ++
                ',' :: renderMembers (m2 :: ms''), by simp [renderMembers]⟩
          obtain ⟨t1, hrm⟩ := hrm
          simp only [renderJson, List.cons_append, List.append_assoc, hrm]
          rw [parseVal.eq_def]
          simp +decide
          rw [← List.cons_append, ← hrm, h2]
    · cases es with
      | nil => exact absurd rfl hne
      | cons e es' =>
        have hwf1 : JsonWf e = true ∧ JsonListWf es' = true := by
          simpa [JsonListWf, Bool.and_eq_true] using hwf
        cases es' with
        | nil =>
          have hsze : jsize e ≤ fuel := by
            simp only [jlistSize] at hs
            omega
          have h1 := ihV e (']' :: rest) hwf1.1 hsze
            (takeWhile_num_nil_cons (by decide))
          simp only [renderElems]
          rw [parseElems.eq_def]
          simp +decide [h1]
        | cons e2 es'' =>
          have hsze : jsize e ≤ fuel := by
            simp only [jlistSize] at hs
            omega
          have hsz2 : jlistSize (e2 :: es'') ≤ fuel := by
            have := jsize_pos e
            simp only [jlistSize] at hs
            simp only [jlistSize]
            omega
          have h1 := ihV e (',' :: (renderElems (e2 :: es'') ++ ']' :: rest))
            hwf1.1 hsze (takeWhile_num_nil_cons (by decide))
          have h2 := ihE (e2 :: es'') rest (by simp) hwf1.2 hsz2
          simp only [renderElems, List.append_assoc, List.cons_append]
          rw [parseElems.eq_def]
          simp +decide [h1, h2]
    · cases ms with
      | nil => exact absurd rfl hne
      | cons m ms' =>
        obtain ⟨k, v⟩ := m
        have hwf1 : JsonWf v = true ∧ JsonMembersWf ms' = true := by
          simpa [JsonMembersWf, Bool.and_eq_true] using hwf
        cases ms' with
        | nil =>
          have hszv : jsize v ≤ fuel := by
            simp only [jmembersSize] at hs
            omega
          have h1 := ihV v (cbrace :: rest) hwf1.1 hszv
            (takeWhile_num_nil_cons (by decide))
          simp only [renderMembers, List.append_assoc, List.cons_append]
          rw [parseMembers.eq_def]
          simp +decide [parseStrChars_escape, string_mk_data, h1]
        | cons m2 ms'' =>
          have hszv : jsize v ≤ fuel := by
            simp only [jmembersSize] at hs
            omega
          have hsz2 : jmembersSize (m2 :: ms'') ≤ fuel := by
            have := jsize_pos v
            simp only [jmembersSize] at hs
            simp only [jmembersSize]
            omega
          have h1 := ihV v
            (',' :: (renderMembers (m2 :: ms'') ++ cbrace :: rest))
            hwf1.1 hszv (takeWhile_num_nil_cons (by decide))
          have h2 := ihM (m2 :: ms'') rest (by simp) hwf1.2 hsz2
          simp only [renderMembers, List.append_assoc, List.cons_append]
          rw [parseMembers.eq_def]
          simp +decide [parseStrChars_escape, string_mk_data, h1, h2]

/-- The JSON size of a well-formed value is bounded by the length of
its rendering (so the fuel chosen by `Json.parse` suffices). -/
theorem jsize_le_render_aux (n : Nat) :
    (∀ j, jsize j ≤ n → JsonWf j = true → jsize j ≤ (renderJson j).length) ∧
    (∀ es, jlistSize es ≤ n → JsonListWf es = true →
      jlistSize es ≤ (renderElems es).length + 1) ∧
    (∀ ms, jmembersSize ms ≤ n → JsonMembersWf ms = true →
      jmembersSize ms ≤ (renderMembers ms).length + 1) := by
  induction n with
  | zero =>
    refine ⟨fun j hs _ => absurd hs (by have := jsize_pos j; omega),
      fun es hs _ => ?_, fun ms hs _ => ?_⟩
    · cases es with
      | nil => simp [jlistSize]
      | cons e es => exfalso; have := jsize_pos e; simp [jlistSize] at hs
    · cases ms with
      | nil => simp [jmembersSize]
      | cons m ms =>
        exfalso
        obtain ⟨k, v⟩ := m
        have := jsize_pos v
        simp [jmembersSize] at hs
  | succ n ih =>
    obtain ⟨ihV, ihE, ihM⟩ := ih
    refine ⟨fun j hs hwf => ?_, fun es hs hwf => ?_, fun ms hs hwf => ?_⟩
    · cases j with
      | null => simp [jsize, renderJson, kwNull]
      | bool b => cases b <;> simp [jsize, renderJson, kwTrue, kwFalse]
      | intNum i =>
        have := List.length_pos.mpr (intRender_ne_nil i)
        simp only [jsize, renderJson]
        omega
      | floatNum t =>
        obtain ⟨_, _, _, c, r, ht, _⟩ :=
          floatTokenWf_spec (by simpa [JsonWf] using hwf)
        simp [jsize, renderJson, ht]
      | str s => simp [jsize, renderJson]
      | arr es =>
        have h1 : jlistSize es ≤ n := by simp only [jsize] at hs; omega
        have h2 := ihE es h1 (by simpa [JsonWf] using hwf)
        simp only [jsize, renderJson, List.length_cons, List.length_append]
        simp at h2 ⊢
        omega
      | obj ms =>
        have h1 : jmembersSize ms ≤ n := by simp only [jsize] at hs; omega
        have h2 := ihM ms h1 (by simpa [JsonWf] using hwf)
        simp only [jsize, renderJson, List.length_cons, List.length_append]
        simp at h2 ⊢
        omega
    · cases es with
      | nil => simp [jlistSize]
      | cons e es' =>
        have hwf1 : JsonWf e = true ∧ JsonListWf es' = true := by
          simpa [JsonListWf, Bool.and_eq_true] using hwf
        have he : jsize e ≤ (renderJson e).length :=
          ihV e (by simp only [jlistSize] at hs; omega) hwf1.1
        cases es' with
        | nil =>
          simp only [jlistSize, renderElems]
          omega
        | cons e2 es'' =>
          have h2 := ihE (e2 :: es'')
            (by
              have := jsize_pos e
              simp only [jlistSize] at hs ⊢
              omega)
            hwf1.2
          simp only [jlistSize, renderElems, List.length_append,
            List.length_cons] at h2 ⊢
          omega
    · cases ms with
      | nil => simp [jmembersSize]
      | cons m ms' =>
        obtain ⟨k, v⟩ := m
        have hwf1 : JsonWf v = true ∧ JsonMembersWf ms' = true := by
          simpa [JsonMembersWf, Bool.and_eq_true] using hwf
        have hv : jsize v ≤ (renderJson v).length :=
          ihV v (by simp only [jmembersSize] at hs; omega) hwf1.1
        cases ms' with
        | nil =>
          simp only [jmembersSize, renderMembers, List.length_cons,
            List.length_append]
          omega
        | cons m2 ms'' =>
          have h2 := ihM (m2 :: ms'')
            (by
              have := jsize_pos v
              simp only [jmembersSize] at hs ⊢
              omega)
            hwf1.2
          simp only [jmembersSize, renderMembers, List.length_append,
            List.length_cons] at h2 ⊢
          omega

/-- Parsing the rendered text of any well-formed JSON value recovers
the value exactly. -/
theorem json_parse_render {j : Json} (hwf : JsonWf j = true) :
    Json.parse (Json.renderStr j) = some j := by
  unfold Json.parse Json.renderStr
  have hdata : (String.mk (renderJson j)).data = renderJson j := rfl
  rw [hdata]
  have hsz : jsize j ≤ (renderJson j).length + 1 := by
    have h := (jsize_le_render_aux (jsize j)).1 j le_rfl hwf
    omega
  have h1 := (parse_render_aux ((renderJson j).length + 1)).1 j [] hwf hsz
    (by simp)
  rw [List.append_nil] at h1
  rw [h1]

/-! ### `value_to_json` on records with distinct keys -/

theorem mapInsert_append {m : List (String × Json)} {k : String} {v : Json}
    (h : ∀ p ∈ m, p.1 ≠ k) :
    mapInsert m k v = m ++ [(k, v)] := by
  unfold mapInsert
  rw [if_neg]
  simp only [List.any_eq_true, not_exists, not_and]
  intro p hp
  simpa using h p hp

theorem jsonMembers_map (fs : List (String × Value)) :
    ∀ acc : List (String × Json), (fs.map Prod.fst).Nodup →
      (∀ p ∈ acc, ∀ q ∈ fs, p.1 ≠ q.1) →
      jsonMembers fs acc = acc ++ fs.map (fun q => (q.1, value_to_json q.2)) := by
  induction fs with
  | nil => intro acc _ _; simp [jsonMembers]
  | cons q fs ih =>
    intro acc hnd hdisj
    obtain ⟨k, v⟩ := q
    simp only [jsonMembers]
    rw [mapInsert_append (fun p hp => hdisj p hp (k, v) (by simp))]
    have hnd' := hnd
    simp only [List.map_cons] at hnd'
    have hps := List.nodup_cons.mp hnd'
    have hk_notin : ∀ q' ∈ fs, k ≠ q'.1 := by
      intro q' hq' he
      exact hps.1 (he ▸ List.mem_map_of_mem Prod.fst hq')
    rw [ih (acc ++ [(k, value_to_json v)])
      hps.2
      (by
        intro p hp q' hq'
        rcases List.mem_append.mp hp with hpa | hpk
        · exact hdisj p hpa q' (List.mem_cons_of_mem _ hq')
        · have : p = (k, value_to_json v) := by simpa using hpk
          rw [this]
          exact hk_notin q' hq')]
    simp

/-- With pairwise-distinct keys, the record arm of `value_to_json`
keeps every key in insertion order and maps each value recursively. -/
theorem value_to_json_record (fs : List (String × Value))
    (hnd : (fs.map Prod.fst).Nodup) :
    value_to_json (.record fs) =
      .obj (fs.map fun q => (q.1, value_to_json q.2)) := by
  simp only [value_to_json]
  rw [jsonMembers_map fs [] hnd (by simp)]
  simp

/-! ### Response helpers -/

theorem contentType_from_data_header (b : List Nat) (ct : String) :
    ((Response.from_data b).with_header (content_type_header ct)).contentType =
      some ct := by
  simp [Response.from_data, Response.with_header, content_type_header,
    Response.contentType, List.find?]

theorem infer_explicit {meta : Option PipelineMetadata} {ct : String}
    (dflt : Option String)
    (h : meta.bind (fun m => m.content_type) = some ct) :
    infer_content_type meta dflt = ct := by
  simp [infer_content_type, h]

theorem infer_default {meta : Option PipelineMetadata} (dflt : String)
    (h : meta.bind (fun m => m.content_type) = none) :
    infer_content_type meta (some dflt) = dflt := by
  simp [infer_content_type, h]

theorem listStream_foldl_body (vals : List Value) :
    ∀ init : List Nat,
      vals.foldl (fun body v => body ++ value_to_bytes v ++ [10]) init =
        init ++ vals.flatMap (fun v => value_to_bytes v ++ [10]) := by
  induction vals with
  | nil => intro init; simp
  | cons v vs ih =>
    intro init
    simp only [List.foldl_cons, List.flatMap_cons]
    rw [ih]
    simp [List.append_assoc]

theorem foldl_push_eq (ps : List (String × String)) :
    ∀ acc : Record,
      ps.foldl (fun acc p => acc.push p.1 (.str p.2)) acc =
        acc ++ ps.map (fun p => (p.1, Value.str p.2)) := by
  induction ps with
  | nil => intro acc; simp
  | cons p ps ih =>
    intro acc
    simp only [List.foldl_cons, List.map_cons]
    rw [ih]
    simp [Record.push]

theorem record_get_map (l : List (String × String)) (k : String) :
    Record.get (l.map fun p => (p.1, Value.str p.2)) k =
      (l.find? (fun p => p.1 = k)).map (fun p => Value.str p.2) := by
  induction l with
  | nil => rfl
  | cons p l ih =>
    by_cases hp : p.1 = k
    · simp [Record.get, List.find?_cons, hp]
    · simp only [List.map_cons]
      unfold Record.get at ih ⊢
      rw [List.find?_cons, List.find?_cons]
      simp only [hp, decide_False]
      exact ih

/-! ### Claim C1 -/

/-- C1 counterexample: the claim classifies the address only by the
regexes `^:\d+$` and `^[^:]*:\d+$` (digit suffix a valid u16), under
which `":foo"` is a Unix path; the code classifies any address that
starts with `:` as TCP, so `is_tcp ":foo"` is `true`. -/
theorem c1_counterexample :
    is_tcp ":foo" = true ∧ claimedTcp ":foo" = false := by
  decide

/-- C1 (amended): an address is classified as TCP iff it starts with
`:` (whatever follows), or it contains `:` and the text after its last
`:` parses as an unsigned 16-bit integer under Rust's rules (optional
leading `+`, one or more digits, value at most 65535); every other
address is classified as a Unix socket path. -/
theorem c1_address_classification (s : String) :
    is_tcp s = true ↔
      (strStartsWith s ':' = true ∨
        (strContains s ':' = true ∧
          ∃ a d, s.data = a ++ ':' :: d ∧ ':' ∉ d ∧
            (rustParseU16 d).isSome = true)) := by
  unfold is_tcp
  rw [Bool.or_eq_true, Bool.and_eq_true]
  constructor
  · rintro (h | ⟨hc, hp⟩)
    · exact Or.inl h
    · refine Or.inr ⟨hc, ?_⟩
      have hmem : ':' ∈ s.data := by simpa [strContains] using hc
      obtain ⟨a, d, hl, hd⟩ := decomp_at_last hmem
      refine ⟨a, d, hl, hd, ?_⟩
      rw [hl, splitChar_getLast hd] at hp
      exact hp
  · rintro (h | ⟨hc, a, d, hl, hd, hp⟩)
    · exact Or.inl h
    · refine Or.inr ⟨hc, ?_⟩
      rw [hl, splitChar_getLast hd]
      exact hp

/-! ### Claim C2 -/

/-- C2: a record value produces a 200 response whose body is the JSON
object serialization of the record with keys in insertion order (nested
values mapped recursively by `value_to_json`), parsing the body text
back recovers exactly that JSON object (hence an equivalent key set and
values), and the content type is `application/json` unless an explicit
content type is supplied. Hypotheses: the record's keys are pairwise
distinct (Nushell's record invariant), and the float tokens in its JSON
image are well-formed serde number tokens (true of every value
`serde_json::Number::from_f64` produces). The 200 status comes from the
spec-modelled `Response::from_data`. -/
theorem c2_record_response (fields : List (String × Value))
    (meta : Option PipelineMetadata)
    (hnd : (fields.map Prod.fst).Nodup)
    (hwf : JsonWf (value_to_json (.record fields)) = true) :
    (pipeline_data_to_response (.value (.record fields) meta)).status = 200 ∧
    (pipeline_data_to_response (.value (.record fields) meta)).body =
      strBytes (Json.renderStr (value_to_json (.record fields))) ∧
    value_to_json (.record fields) =
      .obj (fields.map fun q => (q.1, value_to_json q.2)) ∧
    Json.parse (Json.renderStr (value_to_json (.record fields))) =
      some (value_to_json (.record fields)) ∧
    (pipeline_data_to_response (.value (.record fields) meta)).contentType =
      some (infer_content_type meta (some "application/json")) ∧
    (∀ ct, meta.bind (fun m => m.content_type) = some ct →
      infer_content_type meta (some "application/json") = ct) ∧
    (meta.bind (fun m => m.content_type) = none →
      infer_content_type meta (some "application/json") = "application/json") := by
  refine ⟨?_, ?_, value_to_json_record fields hnd, json_parse_render hwf, ?_,
    fun ct h => infer_explicit _ h, fun h => infer_default _ h⟩
  · simp [pipeline_data_to_response, Response.from_data, Response.with_header]
  · simp [pipeline_data_to_response, Response.from_data, Response.with_header,
      value_to_bytes, Json.renderStr]
  · exact contentType_from_data_header _ _

/-- C2 witness: the hypotheses and the round-trip conclusion at the
concrete record `\x7bstatus: "ok", n: 42\x7d` with no metadata. -/
theorem c2_witness :
    (([("status", Value.str "ok"), ("n", Value.int 42)].map Prod.fst).Nodup) ∧
    JsonWf (value_to_json
      (.record [("status", Value.str "ok"), ("n", Value.int 42)])) = true ∧
    Json.parse (Json.renderStr (value_to_json
      (.record [("status", Value.str "ok"), ("n", Value.int 42)]))) =
      some (value_to_json
        (.record [("status", Value.str "ok"), ("n", Value.int 42)])) := by
  have hnd : (([("status", Value.str "ok"), ("n", Value.int 42)].map
      Prod.fst).Nodup) := by decide
  have hwf : JsonWf (value_to_json
      (.record [("status", Value.str "ok"), ("n", Value.int 42)])) = true := by
    simp [value_to_json, jsonMembers, mapInsert, JsonWf, JsonMembersWf]
  exact ⟨hnd, hwf,
    (c2_record_response [("status", Value.str "ok"), ("n", Value.int 42)]
      none hnd hwf).2.2.2.1⟩

/-! ### Claim C3 -/

/-- C3 counterexample: a `Nothing` value carrying an explicit content
type in its metadata still gets the bare 204 response with no
`Content-Type` header at all — the metadata is ignored in that case,
so the response's content type is not the explicit one. -/
theorem c3_counterexample :
    (pipeline_data_to_response
      (.value .nothing (some ⟨some "application/json"⟩))).contentType = none ∧
    (none : Option String) ≠ some "application/json" := by
  exact ⟨rfl, by simp⟩

/-- C3 (amended): an explicit content type in the result metadata
overrides the per-case default in every body-producing case — scalar or
other values, records, lists, list streams, and byte streams with a
reader — but not in the Empty/Nothing case (204, metadata ignored, no
`Content-Type` header). -/
theorem c3_explicit_content_type (meta : Option PipelineMetadata) (ct : String)
    (h : meta.bind (fun m => m.content_type) = some ct) :
    (∀ v : Value, v ≠ .nothing →
      (pipeline_data_to_response (.value v meta)).contentType = some ct) ∧
    (∀ vals, (pipeline_data_to_response (.listStream vals meta)).contentType =
      some ct) ∧
    (∀ bytes,
      (pipeline_data_to_response (.byteStream (some bytes) meta)).contentType =
        some ct) := by
  refine ⟨fun v hv => ?_, fun vals => ?_, fun bytes => ?_⟩
  · cases v with
    | nothing => exact absurd rfl hv
    | record fs =>
      simp only [pipeline_data_to_response]
      rw [contentType_from_data_header, infer_explicit _ h]
    | list vs =>
      simp only [pipeline_data_to_response]
      rw [contentType_from_data_header, infer_explicit _ h]
    | str s =>
      simp only [pipeline_data_to_response]
      rw [contentType_from_data_header, infer_explicit _ h]
    | int i =>
      simp only [pipeline_data_to_response]
      rw [contentType_from_data_header, infer_explicit _ h]
    | float f =>
      simp only [pipeline_data_to_response]
      rw [contentType_from_data_header, infer_explicit _ h]
    | binary b =>
      simp only [pipeline_data_to_response]
      rw [contentType_from_data_header, infer_explicit _ h]
    | bool b =>
      simp only [pipeline_data_to_response]
      rw [contentType_from_data_header, infer_explicit _ h]
    | other d =>
      simp only [pipeline_data_to_response]
      rw [contentType_from_data_header, infer_explicit _ h]
  · simp only [pipeline_data_to_response]
    rw [contentType_from_data_header, infer_explicit _ h]
  · simp only [pipeline_data_to_response]
    rw [contentType_from_data_header, infer_explicit _ h]

/-- C3 witness: the explicit content type `text/csv` is carried through
for a concrete non-nothing value. -/
theorem c3_witness :
    (some (⟨some "text/csv"⟩ : PipelineMetadata)).bind
      (fun m => m.content_type) = some "text/csv" ∧
    (pipeline_data_to_response
      (.value (.str "x") (some ⟨some "text/csv"⟩))).contentType =
        some "text/csv" :=
  ⟨rfl, (c3_explicit_content_type (some ⟨some "text/csv"⟩) "text/csv" rfl).1
    (.str "x") (by simp)⟩

/-! ### Claim C4 -/

/-- C4 counterexample: for the URL `/p?x=1&x=2` the claim's
last-one-wins reading predicts the mapping holds `"2"` for `x`; the
code pushes both pairs and a record lookup returns the first
occurrence `"1"`. -/
theorem c4_counterexample :
    queryPairs "/p?x=1&x=2" = [("x", "1"), ("x", "2")] ∧
    Record.get (query_record_of "/p?x=1&x=2") "x" = some (.str "1") ∧
    some (Value.str "1") ≠ some (Value.str "2") := by
  refine ⟨by decide, by rfl, by simp⟩

/-- C4 (amended): the query mapping is built from the part of the URL
after the first `?`, split on `&`, each segment split at its first `=`
(segments without `=` contribute nothing, keys and values verbatim with
no percent-decoding — this is the definition of `queryPairs`); every
occurrence of a duplicated key is pushed into the record in segment
order, and a record lookup returns the value of the first occurrence,
not the last. -/
theorem c4_query_mapping (r : Request) (k : String) :
    query_record_of r.url =
      (queryPairs r.url).map (fun p => (p.1, Value.str p.2)) ∧
    Record.get (query_record_of r.url) k =
      ((queryPairs r.url).find? (fun p => p.1 = k)).map
        (fun p => Value.str p.2) ∧
    Record.get (request_record r) "query" =
      some (.record (query_record_of r.url)) ∧
    request_to_value r = .record (request_record r) := by
  have h1 : query_record_of r.url =
      (queryPairs r.url).map (fun p => (p.1, Value.str p.2)) := by
    simpa [query_record_of, Record.new] using
      foldl_push_eq (queryPairs r.url) []
  refine ⟨h1, ?_, ?_, rfl⟩
  · rw [h1, record_get_map]
  · cases hr : r.remote_addr <;>
      simp [request_record, hr, Record.push, Record.new, Record.get,
        List.find?]

/-! ### Claim C5 -/

/-- C5 counterexample: a one-item list stream produces a body with a
trailing newline after the single item, not the separator-only layout
the claim states (n−1 newlines, none trailing). -/
theorem c5_counterexample :
    (pipeline_data_to_response
      (.listStream [.record [("a", .int 1)]] none)).body =
      value_to_bytes (.record [("a", .int 1)]) ++ [10] ∧
    (pipeline_data_to_response
      (.listStream [.record [("a", .int 1)]] none)).body ≠
      value_to_bytes (.record [("a", .int 1)]) := by
  have hbody : (pipeline_data_to_response
      (.listStream [.record [("a", .int 1)]] none)).body =
      value_to_bytes (.record [("a", .int 1)]) ++ [10] := by
    simp only [pipeline_data_to_response, Response.from_data,
      Response.with_header]
    rw [listStream_foldl_body]
    simp
  refine ⟨hbody, ?_⟩
  rw [hbody]
  intro h
  have hlen := congrArg List.length h
  simp at hlen

/-- C5 (amended): for a list stream of n items the response body is the
concatenation of each item's serialized bytes followed by a newline —
n newline bytes in total, one after every item including the last —
and the content type defaults to `application/json` unless explicitly
overridden (a structured item's bytes are its JSON serialization). -/
theorem c5_list_stream_response (vals : List Value)
    (meta : Option PipelineMetadata) :
    (pipeline_data_to_response (.listStream vals meta)).status = 200 ∧
    (pipeline_data_to_response (.listStream vals meta)).body =
      vals.flatMap (fun v => value_to_bytes v ++ [10]) ∧
    (pipeline_data_to_response (.listStream vals meta)).contentType =
      some (infer_content_type meta (some "application/json")) ∧
    (meta.bind (fun m => m.content_type) = none →
      infer_content_type meta (some "application/json") =
        "application/json") ∧
    (∀ fs, value_to_bytes (Value.record fs) =
      strBytes (Json.renderStr (value_to_json (.record fs)))) := by
  refine ⟨?_, ?_, ?_, fun h => infer_default _ h, fun fs => rfl⟩
  · simp [pipeline_data_to_response, Response.from_data, Response.with_header]
  · simp only [pipeline_data_to_response, Response.from_data,
      Response.with_header]
    rw [listStream_foldl_body]
    simp
  · exact contentType_from_data_header _ _

/-- C5 witness: the default content type at a concrete stream with no
metadata. -/
theorem c5_witness :
    (Option.bind (none : Option PipelineMetadata)
      (fun m => m.content_type) = none) ∧
    (pipeline_data_to_response (.listStream [.str "a"] none)).contentType =
      some "application/json" := by
  have h := c5_list_stream_response [.str "a"] none
  exact ⟨rfl, by rw [h.2.2.1, h.2.2.2.1 rfl]⟩

/-! ### Claim C6 -/

/-- C6: an empty handler result — no pipeline value at all, or the
null/nothing value with any metadata — yields status 204 with a
zero-length body. -/
theorem c6_empty_response (meta : Option PipelineMetadata) :
    (pipeline_data_to_response .empty).status = 204 ∧
    (pipeline_data_to_response .empty).body = [] ∧
    (pipeline_data_to_response (.value .nothing meta)).status = 204 ∧
    (pipeline_data_to_response (.value .nothing meta)).body = [] := by
  refine ⟨rfl, rfl, ?_, ?_⟩ <;>
    simp [pipeline_data_to_response, Response.from_data,
      Response.with_status_code]

/-! ### Claim C7 -/

/-- C7: when the handler raises an error whose display text is `m`, the
response has status 500, body exactly `Error: ` followed by `m`, and
content type `text/plain; charset=utf-8` (the error path builds the
response with the spec-modelled `Response::from_string`, which fixes
that content type; no result metadata exists on this path). -/
theorem c7_error_response (m : String) :
    handle_request (.error m) = error_response m ∧
    (error_response m).status = 500 ∧
    (error_response m).body = strBytes ("Error: " ++ m) ∧
    (error_response m).contentType = some "text/plain; charset=utf-8" := by
  refine ⟨rfl, rfl, rfl, ?_⟩
  simp [error_response, Response.from_string, Response.with_status_code,
    Response.contentType, List.find?]

/-! ### Claim C8 -/

/-- C8: every scalar value — string, integer, float, boolean, binary —
yields status 200 with the value's natural text/byte representation as
body (canonical decimal text for integers, `true`/`false` for booleans,
raw bytes for binary, the string's bytes for text, the Rust `Display`
text for floats, which the embedding keeps abstract), and the content
type is `text/plain; charset=utf-8` unless an explicit content type is
supplied, in which case the explicit one is used. The 200 status comes
from the spec-modelled `Response::from_data`. -/
theorem c8_scalar_response (meta : Option PipelineMetadata) :
    (∀ s : String,
      (pipeline_data_to_response (.value (.str s) meta)).status = 200 ∧
      (pipeline_data_to_response (.value (.str s) meta)).body = strBytes s ∧
      (pipeline_data_to_response (.value (.str s) meta)).contentType =
        some (infer_content_type meta (some "text/plain; charset=utf-8"))) ∧
    (∀ i : Int,
      (pipeline_data_to_response (.value (.int i) meta)).status = 200 ∧
      (pipeline_data_to_response (.value (.int i) meta)).body =
        strBytes (String.mk (intRender i)) ∧
      (pipeline_data_to_response (.value (.int i) meta)).contentType =
        some (infer_content_type meta (some "text/plain; charset=utf-8"))) ∧
    (∀ f : F64,
      (pipeline_data_to_response (.value (.float f) meta)).status = 200 ∧
      (pipeline_data_to_response (.value (.float f) meta)).body =
        strBytes f.display ∧
      (pipeline_data_to_response (.value (.float f) meta)).contentType =
        some (infer_content_type meta (some "text/plain; charset=utf-8"))) ∧
    (∀ b : Bool,
      (pipeline_data_to_response (.value (.bool b) meta)).status = 200 ∧
      (pipeline_data_to_response (.value (.bool b) meta)).body =
        strBytes (if b then "true" else "false") ∧
      (pipeline_data_to_response (.value (.bool b) meta)).contentType =
        some (infer_content_type meta (some "text/plain; charset=utf-8"))) ∧
    (∀ bs : List Nat,
      (pipeline_data_to_response (.value (.binary bs) meta)).status = 200 ∧
      (pipeline_data_to_response (.value (.binary bs) meta)).body = bs ∧
      (pipeline_data_to_response (.value (.binary bs) meta)).contentType =
        some (infer_content_type meta (some "text/plain; charset=utf-8"))) ∧
    (∀ ct, meta.bind (fun m => m.content_type) = some ct →
      infer_content_type meta (some "text/plain; charset=utf-8") = ct) ∧
    (meta.bind (fun m => m.content_type) = none →
      infer_content_type meta (some "text/plain; charset=utf-8") =
        "text/plain; charset=utf-8") := by
  refine ⟨fun s => ⟨?_, ?_, ?_⟩, fun i => ⟨?_, ?_, ?_⟩, fun f => ⟨?_, ?_, ?_⟩,
    fun b => ⟨?_, ?_, ?_⟩, fun bs => ⟨?_, ?_, ?_⟩,
    fun ct h => infer_explicit _ h, fun h => infer_default _ h⟩ <;>
    first
      | exact contentType_from_data_header _ _
      | (simp [pipeline_data_to_response, Response.from_data,
          Response.with_header, value_to_bytes])

/-- C8 witness: the explicit content type overrides the scalar default
at a concrete string value. -/
theorem c8_witness :
    (some (⟨some "text/html"⟩ : PipelineMetadata)).bind
      (fun m => m.content_type) = some "text/html" ∧
    (pipeline_data_to_response
      (.value (.str "hi") (some ⟨some "text/html"⟩))).status = 200 ∧
    (pipeline_data_to_response
      (.value (.str "hi") (some ⟨some "text/html"⟩))).contentType =
        some "text/html" := by
  obtain ⟨h1, _, h3⟩ :=
    (c8_scalar_response (some ⟨some "text/html"⟩)).1 "hi"
  have hct := (c8_scalar_response
    (some ⟨some "text/html"⟩)).2.2.2.2.2.1 "text/html" rfl
  exact ⟨rfl, h1, by rw [h3, hct]⟩

/-! ### Claim C9 -/

/-- C9: for an address classified as a Unix socket path, a relative
path (not starting with `/`) binds to the platform join of the caller's
working directory and the path, and an absolute path binds unchanged. -/
theorem c9_unix_path_resolution (p d : String) (h : is_tcp p = false) :
    (strStartsWith p '/' = false → resolved_socket_path p d = joinPath d p) ∧
    (strStartsWith p '/' = true → resolved_socket_path p d = p) := by
  constructor
  · intro hrel
    unfold resolved_socket_path
    rw [if_pos ⟨by simp [h], by simp [hrel]⟩]
  · intro habs
    unfold resolved_socket_path
    rw [if_neg (by simp [habs])]

/-- C9 witness: the concrete relative path `./server.sock` against the
working directory `/home/user`. -/
theorem c9_witness :
    is_tcp "./server.sock" = false ∧
    resolved_socket_path "./server.sock" "/home/user" =
      "/home/user/./server.sock" := by
  have h := (c9_unix_path_resolution "./server.sock" "/home/user"
    (by decide)).1 (by decide)
  refine ⟨by decide, ?_⟩
  rw [h]
  decide

/-! ### Claim C10 -/

/-- C10: the response mapping is total over value types. A value
outside the enumerated set (modelled by `Value.other` carrying its Rust
`Debug` text) yields status 200 with the debug text as body; nested in
a record or list it becomes a JSON string of the debug text; and every
value produces a response with status 200 or 204 — no value type makes
the mapping fail. -/
theorem c10_other_value_total (meta : Option PipelineMetadata) :
    (∀ d : String,
      (pipeline_data_to_response (.value (.other d) meta)).status = 200 ∧
      (pipeline_data_to_response (.value (.other d) meta)).body =
        strBytes d ∧
      value_to_json (.other d) = .str d ∧
      (∀ k, value_to_json (.record [(k, .other d)]) =
        .obj [(k, .str d)]) ∧
      (∀ vs : List Value, value_to_json (.list (.other d :: vs)) =
        .arr (.str d :: jsonList vs))) ∧
    (∀ v : Value,
      (pipeline_data_to_response (.value v meta)).status = 200 ∨
      (pipeline_data_to_response (.value v meta)).status = 204) := by
  constructor
  · intro d
    refine ⟨?_, ?_, ?_, fun k => ?_, fun vs => ?_⟩
    · simp [pipeline_data_to_response, Response.from_data,
        Response.with_header]
    · simp [pipeline_data_to_response, Response.from_data,
        Response.with_header, value_to_bytes, valueDebug]
    · simp [value_to_json, valueDebug]
    · simp [value_to_json, jsonMembers, mapInsert, valueDebug]
    · simp [value_to_json, jsonList, valueDebug]
  · intro v
    cases v with
    | nothing =>
      exact Or.inr (by
        simp [pipeline_data_to_response, Response.from_data,
          Response.with_status_code])
    | record fs =>
      exact Or.inl (by
        simp [pipeline_data_to_response, Response.from_data,
          Response.with_header])
    | list vs =>
      exact Or.inl (by
        simp [pipeline_data_to_response, Response.from_data,
          Response.with_header])
    | str s =>
      exact Or.inl (by
        simp [pipeline_data_to_response, Response.from_data,
          Response.with_header])
    | int i =>
      exact Or.inl (by
        simp [pipeline_data_to_response, Response.from_data,
          Response.with_header])
    | float f =>
      exact Or.inl (by
        simp [pipeline_data_to_response, Response.from_data,
          Response.with_header])
    | binary b =>
      exact Or.inl (by
        simp [pipeline_data_to_response, Response.from_data,
          Response.with_header])
    | bool b =>
      exact Or.inl (by
        simp [pipeline_data_to_response, Response.from_data,
          Response.with_header])
    | other d =>
      exact Or.inl (by
        simp [pipeline_data_to_response, Response.from_data,
          Response.with_header])

end HttpServe
